import Mathlib

/-!
Verification development for the Rails i18n locale scanner / key resolver.

The definitions below are a shallow embedding of the TypeScript sources
`src/i18nLocalesScanner.ts` and `src/i18nProvider.ts`.  JavaScript string
primitives (`split`, `join`, `trim`, `startsWith`, `endsWith`, regexes) are
modelled by explicit character-list functions so that every step of the
original code is visible and provable.
-/

namespace RailsI18n

/-! ### JavaScript string primitives -/

/-- Model of `String.prototype.split(sep)` for a one-character separator,
at the character-list level: every occurrence of `sep` is a boundary.
`acc` holds the (reversed) characters of the piece currently being read. -/
def splitCharAux (sep : Char) : List Char → List Char → List (List Char)
  | [], acc => [acc.reverse]
  | c :: rest, acc =>
    if c = sep then acc.reverse :: splitCharAux sep rest []
    else splitCharAux sep rest (c :: acc)

/-- `s.split(sep)` for a one-character separator. -/
def splitStr (sep : Char) (s : String) : List String :=
  (splitCharAux sep s.toList []).map String.mk

/-- Model of `Array.prototype.join(sep)` at the character-list level. -/
def joinChar (sep : Char) : List (List Char) → List Char
  | [] => []
  | [p] => p
  | p :: rest => p ++ sep :: joinChar sep rest

/-- `parts.join(sep)` for a one-character separator. -/
def joinStr (sep : Char) (l : List String) : String :=
  String.mk (joinChar sep (l.map String.toList))

/-- Model of `String.prototype.trim()` (leading and trailing whitespace). -/
def jsTrim (s : String) : String :=
  String.mk (((s.toList.dropWhile Char.isWhitespace).reverse.dropWhile
      Char.isWhitespace).reverse)

/-- Model of `String.prototype.trimRight()`. -/
def jsTrimRight (s : String) : String :=
  String.mk ((s.toList.reverse.dropWhile Char.isWhitespace).reverse)

/-- Model of `String.prototype.toLowerCase()` (per-character lowering). -/
def jsToLower (s : String) : String :=
  String.mk (s.toList.map Char.toLower)

/-- Model of `s.startsWith(p)`. -/
def jsStartsWith (s p : String) : Bool :=
  p.toList.isPrefixOf s.toList

/-- Model of `s.endsWith(p)`. -/
def jsEndsWith (s p : String) : Bool :=
  p.toList.isSuffixOf s.toList

/-- An ASCII letter, as matched by `[a-z]` with the `i` flag. -/
def isAsciiLetter (c : Char) : Bool :=
  ('a' ≤ c ∧ c ≤ 'z') ∨ ('A' ≤ c ∧ c ≤ 'Z')

/-- `|a - b|` on natural numbers, for the JS comparator `a.length - b.length`. -/
def absDiff (a b : Nat) : Nat := max a b - min a b

/-- JS truthiness of an optional string: `undefined` and `""` are falsy. -/
def jsFalsyOpt : Option String → Bool
  | none => true
  | some s => s = ""

/-! ### Data model (`I18nEntry`, i18nLocalesScanner.ts lines 6-12) -/

/-- One translation record of the index: `key`, `value`, `file`, optional
`lang`, optional 1-based `fileLine`. -/
structure I18nEntry where
  key : String
  value : String
  file : String
  lang : Option String := none
  fileLine : Option Nat := none
  deriving DecidableEq

/-! ### Small scanner helpers -/

/-- `path.basename`: the component after the last `/`. -/
def basename (p : String) : String :=
  (splitStr '/' p).getLastD p

/-- `getLangFromFileName`: the regex `/^([a-z]{2})[_\.]/i` — two leading
ASCII letters followed by `_` or `.`; returns the letters lower-cased. -/
def getLangFromFileName (fileName : String) : Option String :=
  match fileName.toList with
  | c1 :: c2 :: c3 :: _ =>
    if isAsciiLetter c1 ∧ isAsciiLetter c2 ∧ (c3 = '_' ∨ c3 = '.') then
      some (String.mk [c1.toLower, c2.toLower])
    else none
  | _ => none

/-- `isLanguageCode`: the regex `/^[a-z]{2}$/i`. -/
def isLanguageCode (key : String) : Bool :=
  match key.toList with
  | [c1, c2] => isAsciiLetter c1 && isAsciiLetter c2
  | _ => false

/-- The regex `/^([a-z]{2})\.(.+)$/i` shared by `normalizeI18nKeys` and
`findAlternativeKeyLocations`: two ASCII letters, a dot, then a non-empty
rest (in which `.` does not match line terminators).  Returns the
two-letter group and the rest. -/
def keyLangMatch (key : String) : Option (String × String) :=
  match key.toList with
  | c1 :: c2 :: c3 :: rest =>
    if isAsciiLetter c1 ∧ isAsciiLetter c2 ∧ c3 = '.' ∧ rest ≠ [] ∧
        rest.all (fun c => c ≠ '\n' ∧ c ≠ '\r') then
      some (String.mk [c1, c2], String.mk rest)
    else none
  | _ => none

/-- The JS regex `/^(\s*)([^:]+):\s*(.*)$/` applied to one line: returns
`(indent, key, value)` where `indent` is the length of the whitespace
matched by the greedy `(\s*)`, `key` the non-empty run matched by
`([^:]+)` before the first `:`, and `value` the rest of the line after
the `:` with the whitespace of `\s*` removed.  When everything before the
first `:` is whitespace, the greedy `(\s*)` backtracks by one character so
that `([^:]+)` can match that single whitespace character. -/
def matchKeyValue (line : String) : Option (Nat × String × String) :=
  let cs := line.toList
  if ¬ cs.contains ':' then none
  else
    let before := cs.takeWhile (· ≠ ':')
    let afterColon := (cs.dropWhile (· ≠ ':')).tail
    let value := String.mk (afterColon.dropWhile Char.isWhitespace)
    if before.isEmpty then none
    else
      let ws := before.takeWhile Char.isWhitespace
      if ws.length = before.length then
        some (before.length - 1, String.mk [before.getLastD ' '], value)
      else
        some (ws.length, String.mk (before.drop ws.length), value)

/-- `processValue` (i18nLocalesScanner.ts lines 337-352): strip one layer of
matching surrounding quotes, return plain non-empty text, else `null`.
(JS `substring(1, len-1)` swaps its arguments when `len ≤ 1`, returning the
one-character string unchanged.) -/
def processValue (valueStr : String) : Option String :=
  let v := jsTrim valueStr
  if (jsStartsWith v "\"" && jsEndsWith v "\"") ||
      (jsStartsWith v "'" && jsEndsWith v "'") then
    if v.toList.length ≤ 1 then some v
    else some (String.mk ((v.toList.drop 1).take (v.toList.length - 2)))
  else if v ≠ "" then some v
  else none

/-- `normalizeDuplicateKeyParts` inner loop: skip `parts[i]` whenever it
equals `parts[i-1]` (the comparison is always against the *original*
previous element, hence the carried `prev`). -/
def dedupAdjAux (prev : String) : List String → List String
  | [] => []
  | y :: rest => if y = prev then dedupAdjAux y rest else y :: dedupAdjAux y rest

/-- The `normalizedParts` array built by `normalizeDuplicateKeyParts`. -/
def normalizedParts : List String → List String
  | [] => []
  | x :: rest => x :: dedupAdjAux x rest

/-- `normalizeDuplicateKeyParts` (i18nLocalesScanner.ts lines 319-332):
split on `.`, drop parts equal to their predecessor, re-join with `.`. -/
def normalizeDuplicateKeyParts (key : String) : String :=
  joinStr '.' (normalizedParts (splitStr '.' key))

/-! ### Position Extractor (`extractKeyPositions`, lines 224-260) -/

/-- The `while (keyStack.length > 0 && indentLevel <= keyStack.length * 2)
keyStack.pop()` loop.  The stack is modelled with its top at the head. -/
def popStack (indentLevel : Nat) : List String → List String
  | [] => []
  | k :: rest =>
    if indentLevel ≤ (rest.length + 1) * 2 then popStack indentLevel rest
    else k :: rest

/-- JS `Map.prototype.set` on an insertion-ordered association list:
overwriting an existing key keeps its original position. -/
def mapSet (m : List (String × Nat)) (k : String) (v : Nat) :
    List (String × Nat) :=
  if m.any (fun p => p.1 = k) then
    m.map (fun p => if p.1 = k then (k, v) else p)
  else m ++ [(k, v)]

/-- The body of the `extractKeyPositions` line loop.  `i` is the 0-based
index of the current line; `stack` is the key stack (top at head);
`table` is the accumulated key-position map. -/
def extractGo : List String → Nat → List String → List (String × Nat) →
    List (String × Nat)
  | [], _, _, table => table
  | rawLine :: rest, i, stack, table =>
    let line := jsTrim rawLine
    if line = "" ∨ jsStartsWith line "#" then
      extractGo rest (i + 1) stack table
    else
      match matchKeyValue line with
      | none => extractGo rest (i + 1) stack table
      | some (indentLevel, keyRaw, valueRaw) =>
        let key := jsTrim keyRaw
        let value := jsTrim valueRaw
        let stack1 := key :: popStack indentLevel stack
        let table1 :=
          if value ≠ "" ∧ value ≠ "~" then
            mapSet table (joinStr '.' stack1.reverse) (i + 1)
          else table
        extractGo rest (i + 1) stack1 table1

/-- `extractKeyPositions`: scan the lines of `content`, reconstructing key
paths with an indentation stack, and record the 1-based line number of
every line carrying a non-empty, non-`~` value. -/
def extractKeyPositions (content : String) : List (String × Nat) :=
  extractGo (splitStr '\n' content) 0 [] []

/-! ### Line-number lookup (`findLineNumber`, lines 428-460) -/

/-- `findLineNumber`: exact table hit, else first table key whose suffix is
the last two segments of `key`, else first whose suffix is the last
segment.  `none` models both the `undefined` map and the misses. -/
def findLineNumber (keyPositions : Option (List (String × Nat)))
    (key : String) : Option Nat :=
  match keyPositions with
  | none => none
  | some table =>
    if key = "" then none
    else
      match table.find? (fun p => p.1 = key) with
      | some p => some p.2
      | none =>
        if key.toList.contains '.' then
          let keyParts := splitStr '.' key
          let lastTwoParts := joinStr '.' (keyParts.drop (keyParts.length - 2))
          match table.find? (fun p => jsEndsWith p.1 lastTwoParts) with
          | some p => some p.2
          | none =>
            let lastPart := keyParts.getLastD ""
            match table.find? (fun p => jsEndsWith p.1 lastPart) with
            | some p => some p.2
            | none => none
        else none

/-! ### Fallback Line Parser (`attemptPartialParsing`, lines 265-314) -/

/-- The body of the `attemptPartialParsing` line loop.  `sections` is the
JS `currentSections` array in push order, `curIndent` the JS
`currentIndent`. -/
def partialGo (filePath : String) (lang : Option String) :
    List String → Nat → List String → Nat → List I18nEntry
  | [], _, _, _ => []
  | rawLine :: rest, i, sections, curIndent =>
    let line := jsTrimRight rawLine
    if jsTrim line = "" ∨ jsStartsWith (jsTrim line) "#" then
      partialGo filePath lang rest (i + 1) sections curIndent
    else
      match matchKeyValue line with
      | none => partialGo filePath lang rest (i + 1) sections curIndent
      | some (indent, key, valueStr) =>
        let sections1 :=
          if indent ≤ curIndent then
            let diff := (curIndent - indent) / 2 + 1
            sections.take (sections.length - diff)
          else sections
        let cleanKey := jsTrim key
        if jsTrim valueStr = "" ∨ jsTrim valueStr = "~" then
          partialGo filePath lang rest (i + 1) (sections1 ++ [cleanKey]) indent
        else
          match processValue (jsTrim valueStr) with
          | some processedValue =>
            { key := joinStr '.' (sections1 ++ [cleanKey])
              value := processedValue
              file := filePath
              lang := lang
              fileLine := some (i + 1) } ::
              partialGo filePath lang rest (i + 1) sections1 indent
          | none => partialGo filePath lang rest (i + 1) sections1 indent

/-- `attemptPartialParsing`: recover entries line-by-line from raw text
when the structured parse failed; no key normalization, no length guard. -/
def attemptPartialParsing (content : String) (filePath : String)
    (lang : Option String) : List I18nEntry :=
  partialGo filePath lang (splitStr '\n' content) 0 [] 0

/-! ### Tree Flattener (`flattenYaml`, lines 357-416)

A parsed YAML document is modelled as nested string-keyed mappings whose
leaves are scalars (strings, numbers and booleans are all stored through
`String(value)`, so a scalar carries its rendered text) or `null`. -/

/-- Parsed YAML values.  `scalar s` stands for a string/number/boolean
whose `String(value)` rendering is `s`. -/
inductive Yaml where
  | scalar (s : String)
  | nullv
  | map (kvs : List (String × Yaml))
  deriving Inhabited

/-- JS `typeof v === 'object'`: mappings and `null` (but not scalars). -/
def isObjectLike : Yaml → Bool
  | .map _ => true
  | .nullv => true
  | .scalar _ => false

mutual

/-- `flattenYaml` (lines 357-416).  At an empty prefix the language-root
keys (2-letter code mapped to an object) are recursed into first with an
empty prefix and the lower-cased code as language, and are then removed
from generic processing (the JS `delete obj[key]`, modelled here by the
`skipRoots` flag of `flattenEntries`). -/
def flattenYaml (obj : Yaml) (pfx : String) (filePath : String)
    (lang : Option String) (keyPositions : Option (List (String × Nat))) :
    List I18nEntry :=
  match obj with
  | .scalar _ => []
  | .nullv => []
  | .map kvs =>
    let lang1 := if jsFalsyOpt lang then getLangFromFileName (basename filePath)
                 else lang
    if pfx = "" then
      flattenRoots kvs filePath keyPositions ++
        flattenEntries true kvs "" filePath lang1 keyPositions
    else flattenEntries false kvs pfx filePath lang1 keyPositions

/-- The first `for key in obj` loop of `flattenYaml`: recurse into every
top-level language-root key with an empty prefix. -/
def flattenRoots (kvs : List (String × Yaml)) (filePath : String)
    (keyPositions : Option (List (String × Nat))) : List I18nEntry :=
  match kvs with
  | [] => []
  | (k, v) :: rest =>
    (if isLanguageCode k ∧ isObjectLike v then
      flattenYaml v "" filePath (some (jsToLower k)) keyPositions
     else []) ++ flattenRoots rest filePath keyPositions

/-- The second `for key in obj` loop of `flattenYaml`.  When `skipRoots`
is set the language-root keys removed by `delete obj[key]` are skipped. -/
def flattenEntries (skipRoots : Bool) (kvs : List (String × Yaml))
    (pfx : String) (filePath : String) (lang : Option String)
    (keyPositions : Option (List (String × Nat))) : List I18nEntry :=
  match kvs with
  | [] => []
  | (k, v) :: rest =>
    if skipRoots ∧ isLanguageCode k ∧ isObjectLike v then
      flattenEntries skipRoots rest pfx filePath lang keyPositions
    else
      let newKey := if pfx = "" then k else pfx ++ "." ++ k
      let normalizedKey := normalizeDuplicateKeyParts newKey
      (match v with
       | .map _ => flattenYaml v normalizedKey filePath lang keyPositions
       | .nullv => []
       | .scalar s =>
         if normalizedKey.toList.length > 200 then []
         else
           [{ key := normalizedKey
              value := s
              file := filePath
              lang := lang
              fileLine := findLineNumber keyPositions normalizedKey }]) ++
        flattenEntries skipRoots rest pfx filePath lang keyPositions

end

/-! ### Index Post-Processor (lines 530-570) -/

/-- The template literal `` `${entry.lang || 'unknown'}` ``: an absent (or
empty, hence falsy) language renders as `"unknown"`. -/
def langOrUnknown : Option String → String
  | none => "unknown"
  | some l => if l = "" then "unknown" else l

/-- The `uniqueKey` of `removeDuplicateEntries`. -/
def uniqueKeyOf (e : I18nEntry) : String :=
  langOrUnknown e.lang ++ "_" ++ e.key

/-- JS `Map.prototype.set` for the dedup map, insertion-ordered. -/
def mapSetE (m : List (String × I18nEntry)) (k : String) (v : I18nEntry) :
    List (String × I18nEntry) :=
  if m.any (fun p => p.1 = k) then
    m.map (fun p => if p.1 = k then (k, v) else p)
  else m ++ [(k, v)]

/-- `removeDuplicateEntries` (lines 530-540): keep one entry per
`lang_key` pair, last write wins, first-insertion order. -/
def removeDuplicateEntries (entries : List I18nEntry) : List I18nEntry :=
  (entries.foldl (fun m e => mapSetE m (uniqueKeyOf e) e) []).map (fun p => p.2)

/-- The loop body of `normalizeI18nKeys` for a single entry: if the key
matches `/^([a-z]{2})\.(.+)$/i` and the stored language is absent, empty,
or different from the lower-cased code, replace key and language. -/
def normalizeEntry (e : I18nEntry) : I18nEntry :=
  match keyLangMatch e.key with
  | some (code, rest) =>
    let langFromKey := jsToLower code
    if jsFalsyOpt e.lang ∨ e.lang ≠ some langFromKey then
      { e with key := rest, lang := some langFromKey }
    else e
  | none => e

/-- `normalizeI18nKeys` (lines 545-570). -/
def normalizeI18nKeys (entries : List I18nEntry) : List I18nEntry :=
  entries.map normalizeEntry

/-- The post-processing of `scanLocaleFiles` (lines 70-71): deduplication
followed by key normalization. -/
def postProcessEntries (entries : List I18nEntry) : List I18nEntry :=
  normalizeI18nKeys (removeDuplicateEntries entries)

/-! ### Key Resolver (`findByKey` lines 479-507, `findExactKey` 512-525) -/

/-- Does the string contain the interpolation marker `#\x7b`? -/
def containsHashBrace : List Char → Bool
  | [] => false
  | c1 :: rest =>
    match rest with
    | c2 :: _ => (c1 = '#' && c2 = '\x7b') || containsHashBrace rest
    | [] => false

/-- `key.split('#\x7b')[0]`: the characters before the first marker. -/
def beforeHashBrace : List Char → List Char
  | [] => []
  | c1 :: rest =>
    match rest with
    | c2 :: _ => if c1 = '#' && c2 = '\x7b' then [] else c1 :: beforeHashBrace rest
    | [] => [c1]

/-- `.replace(/\.$/, '')`: remove one trailing dot. -/
def stripTrailingDot (s : String) : String :=
  if jsEndsWith s "." then String.mk s.toList.dropLast else s

/-- Stable insertion of `x` into an already sorted list: `x` is placed
before the first element strictly greater than it, so that elements
comparing equal keep their encounter order. -/
def insertStable (lt : I18nEntry → I18nEntry → Bool) (x : I18nEntry) :
    List I18nEntry → List I18nEntry
  | [] => [x]
  | y :: ys => if lt y x then y :: insertStable lt x ys else x :: y :: ys

/-- A stable sort, modelling `Array.prototype.sort` with a numeric
comparator (ES2019 guarantees stability; the algorithm is unspecified, so
any stable sort is a faithful model). -/
def stableSort (lt : I18nEntry → I18nEntry → Bool) :
    List I18nEntry → List I18nEntry
  | [] => []
  | x :: xs => insertStable lt x (stableSort lt xs)

/-- The comparator of `findByKey`:
`Math.abs(a.key.length - key.length) - Math.abs(b.key.length - key.length)`,
as the strict order used by the stable sort. -/
def closerThan (keyLen : Nat) (a b : I18nEntry) : Bool :=
  absDiff a.key.length keyLen < absDiff b.key.length keyLen

/-- `findByKey` (lines 479-507): exact matches first; for a dynamic key
(containing `#\x7b`) with a non-empty base prefix, the single prefix match
whose key length is closest to the lookup key's length; else `[]`. -/
def findByKey (entries : List I18nEntry) (key : String) : List I18nEntry :=
  let exactMatches := entries.filter (fun e => e.key = key)
  if exactMatches.length > 0 then exactMatches
  else if containsHashBrace key.toList then
    let baseKey := stripTrailingDot (String.mk (beforeHashBrace key.toList))
    if baseKey.toList.length > 0 then
      let baseMatches := entries.filter (fun e => jsStartsWith e.key baseKey)
      if baseMatches.length > 0 then
        match stableSort (closerThan key.length) baseMatches with
        | e :: _ => [e]
        | [] => []
      else []
    else []
  else []

/-- `findExactKey` (lines 512-525): with a (truthy) preferred language,
first the entry matching both key and language, else the first entry
matching the key. -/
def findExactKey (entries : List I18nEntry) (key : String)
    (preferredLang : Option String) : Option I18nEntry :=
  if ¬ jsFalsyOpt preferredLang then
    match entries.find? (fun e => e.key = key ∧ e.lang = preferredLang) with
    | some e => some e
    | none => entries.find? (fun e => e.key = key)
  else entries.find? (fun e => e.key = key)

/-! ### Alternative key resolution (i18nProvider.ts lines 646-717) -/

/-- A `vscode.Location`: file plus 0-based line/column position. -/
structure JsLocation where
  file : String
  line : Nat
  col : Nat
  deriving DecidableEq

/-- `createLocation` (i18nProvider.ts lines 712-717):
`Math.max(0, fileLine - 1)` (0 when `fileLine` is not a number). -/
def createLocation (e : I18nEntry) : JsLocation :=
  { file := e.file
    line := match e.fileLine with | some n => n - 1 | none => 0
    col := 0 }

/-- The `entry.file && entry.fileLine !== undefined` filter condition. -/
def hasLoc (e : I18nEntry) : Bool :=
  e.file ≠ "" && e.fileLine.isSome

/-- The prepend loop of `findAlternativeKeyLocations`: for each known
language code in order, try `code + "." + key`; first key with a located
match wins. -/
def prependLoop (entries : List I18nEntry) (key : String) :
    List String → Option String
  | [] => none
  | code :: restCodes =>
    let altKey := code ++ "." ++ key
    if entries.any (fun e => e.key = altKey && hasLoc e) then some altKey
    else prependLoop entries key restCodes

/-- The `alternativeKey` computed by `findAlternativeKeyLocations`: strip a
leading known language code from the key, else try prepending each code. -/
def findAltKey (entries : List I18nEntry) (languageCodes : List String)
    (key : String) : Option String :=
  match keyLangMatch key with
  | some (code, rest) =>
    if languageCodes.contains (jsToLower code) then some rest
    else prependLoop entries key languageCodes
  | none => prependLoop entries key languageCodes

/-- `findAlternativeKeyLocations` (i18nProvider.ts lines 667-707).  In the
source `languageCodes` comes from `this.getLanguageCodes()`; it is a
parameter here. -/
def findAlternativeKeyLocations (entries : List I18nEntry)
    (languageCodes : List String) (key : String) : List JsLocation :=
  match findAltKey entries languageCodes key with
  | some altKey =>
    let altMatches := entries.filter (fun e => e.key = altKey && hasLoc e)
    if altMatches.length > 0 then altMatches.map createLocation else []
  | none => []

/-! ### Spec-side definitions for the refinement claims -/

/-- The first element of a list minimizing `measure` (later elements win
only by being strictly smaller): the claim's "entry whose key length is
closest to the original key's length, ties broken by encounter order". -/
def firstMinBy (measure : I18nEntry → Nat) : List I18nEntry → Option I18nEntry
  | [] => none
  | x :: xs =>
    match firstMinBy measure xs with
    | none => some x
    | some b => if measure b < measure x then some b else some x

/-- `findByKey` as worded by the specification claim: exact matches when
any exist; otherwise, for a key containing the marker, the prefix before
the marker with a trailing dot removed, and — when that prefix is
non-empty and matched — exactly the first prefix match of minimal key
length distance; empty list otherwise. -/
def findByKeySpec (entries : List I18nEntry) (key : String) : List I18nEntry :=
  let exact := entries.filter (fun e => e.key = key)
  if exact ≠ [] then exact
  else if containsHashBrace key.toList then
    let baseKey := stripTrailingDot (String.mk (beforeHashBrace key.toList))
    if baseKey ≠ "" then
      match firstMinBy (fun e => absDiff e.key.length key.length)
          (entries.filter (fun e => jsStartsWith e.key baseKey)) with
      | some e => [e]
      | none => []
    else []
  else []

/-! ### Derived predicates used by the theorems -/

/-- The path segments of a key, as the source computes them
(`key.split('.')`). -/
def segs (k : String) : List String := splitStr '.' k

/-- A key has no two adjacent identical path segments. -/
def noAdjDupSegments (k : String) : Prop :=
  List.Chain' (· ≠ ·) (segs k)

/-- A structurally recursive decision procedure for the adjacent-duplicate
check, so that concrete keys can be checked by evaluation. -/
def decChainNeStr : (l : List String) → Decidable (List.Chain' (· ≠ ·) l)
  | [] => isTrue List.chain'_nil
  | [x] => isTrue (List.chain'_singleton x)
  | x :: y :: rest =>
    haveI := decChainNeStr (y :: rest)
    decidable_of_iff (x ≠ y ∧ List.Chain' (· ≠ ·) (y :: rest))
      List.chain'_cons.symm

instance (k : String) : Decidable (noAdjDupSegments k) :=
  decChainNeStr (segs k)

/-- The invariant carried by every key the Tree Flattener emits: the key is
in the image of `normalizeDuplicateKeyParts` (hence has no adjacent
duplicate segments) and respects the 200-character guard. -/
def GoodKey (k : String) : Prop :=
  noAdjDupSegments k ∧ k.toList.length ≤ 200

/-! ### Lemmas: split / join round trip -/

theorem splitCharAux_sepFree {sep : Char} {cs : List Char} (acc : List Char)
    (h : sep ∉ cs) : splitCharAux sep cs acc = [acc.reverse ++ cs] := by
  induction cs generalizing acc with
  | nil => simp [splitCharAux]
  | cons c rest ih =>
    simp only [List.mem_cons, not_or] at h
    rw [splitCharAux, if_neg (fun hc => h.1 hc.symm), ih _ h.2]
    simp

theorem splitCharAux_append {sep : Char} {cs : List Char} (acc rest : List Char)
    (h : sep ∉ cs) :
    splitCharAux sep (cs ++ sep :: rest) acc =
      (acc.reverse ++ cs) :: splitCharAux sep rest [] := by
  induction cs generalizing acc with
  | nil => simp [splitCharAux]
  | cons c cs' ih =>
    simp only [List.mem_cons, not_or] at h
    rw [List.cons_append, splitCharAux, if_neg (fun hc => h.1 hc.symm), ih _ h.2]
    simp

theorem splitCharAux_joinChar {sep : Char} {L : List (List Char)}
    (hne : L ≠ []) (hfree : ∀ p ∈ L, sep ∉ p) :
    splitCharAux sep (joinChar sep L) [] = L := by
  induction L with
  | nil => exact absurd rfl hne
  | cons p rest ih =>
    match rest with
    | [] => simpa [joinChar] using splitCharAux_sepFree [] (hfree p (by simp))
    | q :: rest' =>
      have hj : joinChar sep (p :: q :: rest') = p ++ sep :: joinChar sep (q :: rest') := rfl
      rw [hj, splitCharAux_append _ _ (hfree p (by simp))]
      rw [ih (List.cons_ne_nil q rest') (fun r hr => hfree r (List.mem_cons_of_mem _ hr))]
      simp

theorem mem_splitCharAux_sepFree {sep : Char} {cs acc p : List Char}
    (hacc : sep ∉ acc) (hp : p ∈ splitCharAux sep cs acc) : sep ∉ p := by
  induction cs generalizing acc with
  | nil =>
    simp only [splitCharAux, List.mem_singleton] at hp
    subst hp; simpa using hacc
  | cons c rest ih =>
    rw [splitCharAux] at hp
    by_cases hc : c = sep
    · rw [if_pos hc] at hp
      rcases List.mem_cons.mp hp with h | h
      · subst h; simpa using hacc
      · exact ih (by simp) h
    · rw [if_neg hc] at hp
      refine ih ?_ hp
      intro hmem
      rcases List.mem_cons.mp hmem with h | h
      · exact hc h.symm
      · exact hacc h

theorem toList_mk (l : List Char) : (String.mk l).toList = l := rfl

theorem mk_toList (s : String) : String.mk s.toList = s := rfl

theorem splitStr_joinStr {sep : Char} {l : List String} (hne : l ≠ [])
    (hfree : ∀ p ∈ l, sep ∉ p.toList) :
    splitStr sep (joinStr sep l) = l := by
  unfold splitStr joinStr
  rw [toList_mk, splitCharAux_joinChar (by simpa using hne)
    (by intro p hp
        rcases List.mem_map.mp hp with ⟨s, hs, rfl⟩
        exact hfree s hs)]
  have hid : String.mk ∘ String.toList = id := funext fun s => mk_toList s
  rw [List.map_map, hid, List.map_id]

theorem mem_splitStr_sepFree {sep : Char} {s : String} {p : String}
    (hp : p ∈ splitStr sep s) : sep ∉ p.toList := by
  rcases List.mem_map.mp hp with ⟨cs, hcs, rfl⟩
  rw [toList_mk]
  exact mem_splitCharAux_sepFree (by simp) hcs

/-! ### Lemmas: adjacent-duplicate removal -/

theorem dedupAdjAux_chain (prev : String) (l : List String) :
    (∀ z ∈ (dedupAdjAux prev l).head?, z ≠ prev) ∧
      List.Chain' (· ≠ ·) (dedupAdjAux prev l) := by
  induction l generalizing prev with
  | nil => simp [dedupAdjAux]
  | cons y rest ih =>
    rw [dedupAdjAux]
    by_cases hy : y = prev
    · rw [if_pos hy]
      subst hy
      exact ih y
    · rw [if_neg hy]
      refine ⟨by simpa using hy, ?_⟩
      rw [List.chain'_cons']
      exact ⟨fun z hz => Ne.symm ((ih y).1 z hz), (ih y).2⟩

theorem normalizedParts_chain (l : List String) :
    List.Chain' (· ≠ ·) (normalizedParts l) := by
  match l with
  | [] => simp [normalizedParts]
  | x :: rest =>
    rw [normalizedParts, List.chain'_cons']
    exact ⟨fun z hz => Ne.symm ((dedupAdjAux_chain x rest).1 z hz),
      (dedupAdjAux_chain x rest).2⟩

theorem mem_dedupAdjAux {prev : String} {l : List String} {p : String}
    (hp : p ∈ dedupAdjAux prev l) : p ∈ l := by
  induction l generalizing prev with
  | nil => simp [dedupAdjAux] at hp
  | cons y rest ih =>
    rw [dedupAdjAux] at hp
    by_cases hy : y = prev
    · rw [if_pos hy] at hp
      exact List.mem_cons_of_mem _ (ih hp)
    · rw [if_neg hy] at hp
      rcases List.mem_cons.mp hp with h | h
      · exact h ▸ List.mem_cons_self _ _
      · exact List.mem_cons_of_mem _ (ih h)

theorem mem_normalizedParts {l : List String} {p : String}
    (hp : p ∈ normalizedParts l) : p ∈ l := by
  match l with
  | [] => simp [normalizedParts] at hp
  | x :: rest =>
    rw [normalizedParts] at hp
    rcases List.mem_cons.mp hp with h | h
    · exact h ▸ List.mem_cons_self _ _
    · exact List.mem_cons_of_mem _ (mem_dedupAdjAux h)

theorem normalizedParts_ne_nil {l : List String} (h : l ≠ []) :
    normalizedParts l ≠ [] := by
  match l with
  | [] => exact absurd rfl h
  | x :: rest => simp [normalizedParts]

theorem splitStr_ne_nil (sep : Char) (s : String) : splitStr sep s ≠ [] := by
  unfold splitStr
  suffices h : ∀ cs acc, splitCharAux sep cs acc ≠ [] by
    intro hc
    exact h s.toList [] (by simpa using hc)
  intro cs
  induction cs with
  | nil => intro acc; simp [splitCharAux]
  | cons c rest ih =>
    intro acc
    rw [splitCharAux]
    by_cases hc : c = sep
    · simp [hc]
    · simpa [hc] using ih _

/-- Every output of `normalizeDuplicateKeyParts` has no adjacent duplicate
segments. -/
theorem noAdjDup_normalizeDuplicateKeyParts (k : String) :
    noAdjDupSegments (normalizeDuplicateKeyParts k) := by
  unfold noAdjDupSegments segs normalizeDuplicateKeyParts
  rw [splitStr_joinStr (normalizedParts_ne_nil (splitStr_ne_nil '.' k))
    (fun p hp => mem_splitStr_sepFree (mem_normalizedParts hp))]
  exact normalizedParts_chain _

/-! ### Lemmas: the language-code-in-key regex -/

theorem ne_dot_of_isAsciiLetter {c : Char} (h : isAsciiLetter c) : c ≠ '.' := by
  rintro rfl
  exact absurd h (by decide)

theorem segs_cons {c1 c2 : Char} {restChars : List Char}
    (h1 : c1 ≠ '.') (h2 : c2 ≠ '.') :
    segs (String.mk (c1 :: c2 :: '.' :: restChars)) =
      String.mk [c1, c2] :: segs (String.mk restChars) := by
  unfold segs splitStr
  rw [toList_mk, toList_mk]
  simp [splitCharAux, h1, h2]

theorem keyLangMatch_facts {key code rest : String}
    (h : keyLangMatch key = some (code, rest)) :
    rest.toList.length + 3 = key.toList.length ∧
      (noAdjDupSegments key → noAdjDupSegments rest) := by
  unfold keyLangMatch at h
  match hkl : key.toList with
  | [] => rw [hkl] at h; cases h
  | [c1] => rw [hkl] at h; cases h
  | [c1, c2] => rw [hkl] at h; cases h
  | c1 :: c2 :: c3 :: r =>
    rw [hkl] at h
    have h2 : (if isAsciiLetter c1 = true ∧ isAsciiLetter c2 = true ∧ c3 = '.' ∧
        r ≠ [] ∧ (r.all fun c => decide (c ≠ '\n' ∧ c ≠ '\x0d')) = true then
        some (String.mk [c1, c2], String.mk r) else none) = some (code, rest) := h
    by_cases hc : isAsciiLetter c1 = true ∧ isAsciiLetter c2 = true ∧ c3 = '.' ∧
        r ≠ [] ∧ (r.all fun c => decide (c ≠ '\n' ∧ c ≠ '\x0d')) = true
    · rw [if_pos hc] at h2
      injection h2 with h1
      have hcode : String.mk [c1, c2] = code := congrArg Prod.fst h1
      have hrest : String.mk r = rest := congrArg Prod.snd h1
      constructor
      · rw [← hrest, toList_mk]
        simp
      · intro hkey
        unfold noAdjDupSegments at hkey ⊢
        have hc3 : c3 = '.' := hc.2.2.1
        subst hc3
        have hkeyeq : key = String.mk (c1 :: c2 :: '.' :: r) := by
          rw [← hkl, mk_toList]
        rw [hkeyeq] at hkey
        rw [segs_cons (ne_dot_of_isAsciiLetter hc.1) (ne_dot_of_isAsciiLetter hc.2.1)] at hkey
        rw [← hrest]
        exact (List.chain'_cons'.mp hkey).2
    · rw [if_neg hc] at h2; cases h2

/-! ### Lemmas: every Tree Flattener key is normalized and guarded -/

mutual

theorem flattenYaml_goodKey (obj : Yaml) (pfx filePath : String)
    (lang : Option String) (kps : Option (List (String × Nat))) :
    ∀ e ∈ flattenYaml obj pfx filePath lang kps, GoodKey e.key :=
  match obj with
  | .scalar _ => by intro e he; simp [flattenYaml] at he
  | .nullv => by intro e he; simp [flattenYaml] at he
  | .map kvs => by
    intro e he
    rw [flattenYaml] at he
    by_cases hp : pfx = ""
    · rw [if_pos hp] at he
      rcases List.mem_append.mp he with h | h
      · exact flattenRoots_goodKey kvs filePath kps e h
      · exact flattenEntries_goodKey true kvs "" filePath _ kps e h
    · rw [if_neg hp] at he
      exact flattenEntries_goodKey false kvs pfx filePath _ kps e he

theorem flattenRoots_goodKey (kvs : List (String × Yaml)) (filePath : String)
    (kps : Option (List (String × Nat))) :
    ∀ e ∈ flattenRoots kvs filePath kps, GoodKey e.key :=
  match kvs with
  | [] => by intro e he; simp [flattenRoots] at he
  | (k, v) :: rest => by
    intro e he
    rw [flattenRoots] at he
    rcases List.mem_append.mp he with h | h
    · by_cases hc : isLanguageCode k ∧ isObjectLike v
      · rw [if_pos hc] at h
        exact flattenYaml_goodKey v "" filePath (some (jsToLower k)) kps e h
      · rw [if_neg hc] at h
        simp at h
    · exact flattenRoots_goodKey rest filePath kps e h

theorem flattenEntries_goodKey (skipRoots : Bool) (kvs : List (String × Yaml))
    (pfx filePath : String) (lang : Option String)
    (kps : Option (List (String × Nat))) :
    ∀ e ∈ flattenEntries skipRoots kvs pfx filePath lang kps, GoodKey e.key :=
  match kvs with
  | [] => by intro e he; simp [flattenEntries] at he
  | (k, v) :: rest => by
    intro e he
    rw [flattenEntries] at he
    by_cases hc : skipRoots ∧ isLanguageCode k ∧ isObjectLike v
    · rw [if_pos hc] at he
      exact flattenEntries_goodKey skipRoots rest pfx filePath lang kps e he
    · rw [if_neg hc] at he
      rcases List.mem_append.mp he with h | h
      · match v with
        | .map kvs2 =>
          simp only [] at h
          exact flattenYaml_goodKey (.map kvs2)
            (normalizeDuplicateKeyParts (if pfx = "" then k else pfx ++ "." ++ k))
            filePath lang kps e h
        | .nullv =>
          simp only [] at h
          simp at h
        | .scalar s =>
          simp only [] at h
          by_cases hlen :
            (normalizeDuplicateKeyParts (if pfx = "" then k else pfx ++ "." ++ k)).toList.length > 200
          · rw [if_pos hlen] at h
            simp at h
          · rw [if_neg hlen] at h
            rcases List.mem_singleton.mp h with rfl
            refine ⟨noAdjDup_normalizeDuplicateKeyParts _, ?_⟩
            simpa using Nat.le_of_not_lt hlen
      · exact flattenEntries_goodKey skipRoots rest pfx filePath lang kps e h

end


/-! ### Lemmas: post-processing -/

theorem mem_mapSetE {m : List (String × I18nEntry)} {k : String}
    {v : I18nEntry} {p : String × I18nEntry} (hp : p ∈ mapSetE m k v) :
    p ∈ m ∨ p = (k, v) := by
  unfold mapSetE at hp
  by_cases ha : m.any (fun q => q.1 = k)
  · rw [if_pos ha] at hp
    rcases List.mem_map.mp hp with ⟨q, hq, hqe⟩
    by_cases hqk : q.1 = k
    · rw [if_pos hqk] at hqe
      exact Or.inr hqe.symm
    · rw [if_neg hqk] at hqe
      exact Or.inl (hqe ▸ hq)
  · rw [if_neg ha] at hp
    rcases List.mem_append.mp hp with h | h
    · exact Or.inl h
    · exact Or.inr (List.mem_singleton.mp h)

theorem mem_foldl_mapSetE {l : List I18nEntry} {m : List (String × I18nEntry)}
    {p : String × I18nEntry}
    (hp : p ∈ l.foldl (fun m e => mapSetE m (uniqueKeyOf e) e) m) :
    p ∈ m ∨ p.2 ∈ l := by
  induction l generalizing m with
  | nil => exact Or.inl hp
  | cons x rest ih =>
    rw [List.foldl_cons] at hp
    rcases ih hp with h | h
    · rcases mem_mapSetE h with h2 | h2
      · exact Or.inl h2
      · exact Or.inr (by rw [h2]; exact List.mem_cons_self _ _)
    · exact Or.inr (List.mem_cons_of_mem _ h)

/-- Deduplication only keeps entries that were already present. -/
theorem mem_removeDuplicateEntries {l : List I18nEntry} {e : I18nEntry}
    (he : e ∈ removeDuplicateEntries l) : e ∈ l := by
  unfold removeDuplicateEntries at he
  rcases List.mem_map.mp he with ⟨p, hp, rfl⟩
  rcases mem_foldl_mapSetE hp with h | h
  · simp at h
  · exact h

/-- `normalizeEntry` keeps the key or replaces it by the rest group of the
language-code regex. -/
theorem normalizeEntry_key (e : I18nEntry) :
    (normalizeEntry e).key = e.key ∨
      ∃ code rest, keyLangMatch e.key = some (code, rest) ∧
        (normalizeEntry e).key = rest := by
  unfold normalizeEntry
  match hm : keyLangMatch e.key with
  | none => exact Or.inl rfl
  | some (code, rest) =>
    simp only []
    by_cases hcond : jsFalsyOpt e.lang ∨ e.lang ≠ some (jsToLower code)
    · rw [if_pos hcond]
      exact Or.inr ⟨code, rest, rfl, rfl⟩
    · rw [if_neg hcond]
      exact Or.inl rfl

/-- `GoodKey` survives `normalizeEntry`. -/
theorem goodKey_normalizeEntry {e : I18nEntry} (h : GoodKey e.key) :
    GoodKey (normalizeEntry e).key := by
  rcases normalizeEntry_key e with hk | ⟨code, rest, hm, hk⟩
  · rw [hk]; exact h
  · obtain ⟨hnd, hle⟩ := h
    rw [hk]
    rcases keyLangMatch_facts hm with ⟨hlen, hnad⟩
    exact ⟨hnad hnd, by omega⟩

/-- `GoodKey` holds for every entry surviving the whole post-processing of
a list of `GoodKey` entries. -/
theorem goodKey_postProcess {l : List I18nEntry}
    (hl : ∀ e ∈ l, GoodKey e.key) :
    ∀ e ∈ postProcessEntries l, GoodKey e.key := by
  intro e he
  unfold postProcessEntries normalizeI18nKeys at he
  rcases List.mem_map.mp he with ⟨e0, he0, rfl⟩
  exact goodKey_normalizeEntry (hl e0 (mem_removeDuplicateEntries he0))


/-! ### Lemmas: deduplication really deduplicates -/

theorem mapSetE_inv {m : List (String × I18nEntry)} {k : String}
    {v : I18nEntry} (hk : k = uniqueKeyOf v)
    (h1 : m.Pairwise (fun p q => p.1 ≠ q.1))
    (h2 : ∀ p ∈ m, p.1 = uniqueKeyOf p.2) :
    (mapSetE m k v).Pairwise (fun p q => p.1 ≠ q.1) ∧
      ∀ p ∈ mapSetE m k v, p.1 = uniqueKeyOf p.2 := by
  unfold mapSetE
  by_cases ha : m.any (fun q => q.1 = k)
  · rw [if_pos ha]
    constructor
    · refine (List.pairwise_map.mpr ?_)
      refine h1.imp_of_mem ?_
      intro p q hp hq hne
      by_cases hpk : p.1 = k <;> by_cases hqk : q.1 = k <;>
        simp [hpk, hqk] at * <;> tauto
    · intro p hp
      rcases List.mem_map.mp hp with ⟨q, hq, rfl⟩
      by_cases hqk : q.1 = k
      · simp [hqk, hk]
      · simp [hqk]
        exact h2 q hq
  · rw [if_neg ha]
    rw [List.any_eq_true] at ha
    push_neg at ha
    constructor
    · rw [List.pairwise_append]
      refine ⟨h1, List.pairwise_singleton _ _, ?_⟩
      intro p hp q hq
      rcases List.mem_singleton.mp hq with rfl
      intro hpk
      exact ha p hp (by simp [hpk])
    · intro p hp
      rcases List.mem_append.mp hp with h | h
      · exact h2 p h
      · rcases List.mem_singleton.mp h with rfl
        exact hk

theorem foldl_mapSetE_inv (l : List I18nEntry) :
    ∀ m : List (String × I18nEntry),
      m.Pairwise (fun p q => p.1 ≠ q.1) →
      (∀ p ∈ m, p.1 = uniqueKeyOf p.2) →
      (l.foldl (fun m e => mapSetE m (uniqueKeyOf e) e) m).Pairwise
          (fun p q => p.1 ≠ q.1) ∧
        ∀ p ∈ l.foldl (fun m e => mapSetE m (uniqueKeyOf e) e) m,
          p.1 = uniqueKeyOf p.2 := by
  induction l with
  | nil => intro m h1 h2; exact ⟨h1, h2⟩
  | cons x rest ih =>
    intro m h1 h2
    rw [List.foldl_cons]
    rcases mapSetE_inv rfl h1 h2 with ⟨h1', h2'⟩
    exact ih _ h1' h2'

/-- After `removeDuplicateEntries` no two entries share both key and
(defaulted) language: that would force equal `uniqueKey`s, which the map
keeps distinct. -/
theorem removeDuplicateEntries_pairwise (entries : List I18nEntry) :
    (removeDuplicateEntries entries).Pairwise
      (fun a b => ¬ (a.key = b.key ∧ langOrUnknown a.lang = langOrUnknown b.lang)) := by
  unfold removeDuplicateEntries
  rcases foldl_mapSetE_inv entries [] (by simp) (by simp) with ⟨h1, h2⟩
  refine List.pairwise_map.mpr ?_
  refine (h1.imp_of_mem ?_)
  intro p q hp hq hne ⟨hkey, hlang⟩
  apply hne
  rw [h2 p hp, h2 q hq]
  unfold uniqueKeyOf
  rw [hkey, hlang]

/-! ### Lemmas: stable sort head and the findByKey refinement -/


/-! ### Lemmas: the stable sort head is the first minimum -/

theorem insertStable_ne_nil (lt : I18nEntry → I18nEntry → Bool)
    (x : I18nEntry) (l : List I18nEntry) : insertStable lt x l ≠ [] := by
  match l with
  | [] => simp [insertStable]
  | y :: ys =>
    rw [insertStable]
    by_cases h : lt y x
    · simp [h]
    · simp [h]

theorem stableSort_eq_nil_iff (lt : I18nEntry → I18nEntry → Bool)
    (l : List I18nEntry) : stableSort lt l = [] ↔ l = [] := by
  match l with
  | [] => simp [stableSort]
  | x :: xs =>
    rw [stableSort]
    simp [insertStable_ne_nil]

theorem stableSort_closerThan_head (keyLen : Nat) (l : List I18nEntry) :
    (stableSort (closerThan keyLen) l).head? =
      firstMinBy (fun e => absDiff e.key.length keyLen) l := by
  induction l with
  | nil => rfl
  | cons x xs ih =>
    rw [stableSort, firstMinBy, ← ih]
    match hs : stableSort (closerThan keyLen) xs with
    | [] => simp [insertStable]
    | y :: ys =>
      rw [insertStable]
      by_cases hlt : closerThan keyLen y x
      · rw [if_pos hlt]
        unfold closerThan at hlt
        simp only [decide_eq_true_eq] at hlt
        simp only [List.head?_cons]
        rw [if_pos hlt]
      · rw [if_neg hlt]
        unfold closerThan at hlt
        simp only [decide_eq_true_eq] at hlt
        simp only [List.head?_cons]
        rw [if_neg hlt]

theorem toList_eq_nil_iff (s : String) : s.toList = [] ↔ s = "" :=
  ⟨fun h => by rw [← mk_toList s, h], fun h => h ▸ rfl⟩



/-! ### Lemmas: the Position Extractor records single-segment keys -/

theorem popStack_zero (s : List String) : popStack 0 s = [] := by
  induction s with
  | nil => rfl
  | cons k rest ih =>
    rw [popStack, if_pos (Nat.zero_le _)]
    exact ih

theorem joinStr_singleton (k : String) : joinStr '.' [k] = k :=
  mk_toList k

theorem head?_dropWhile_false {p : Char → Bool} :
    ∀ (l : List Char) {c : Char}, ((l.dropWhile p).head? = some c) → p c = false := by
  intro l
  induction l with
  | nil => intro c h; simp [List.dropWhile] at h
  | cons x xs ih =>
    intro c h
    rw [List.dropWhile_cons] at h
    by_cases hx : p x
    · rw [if_pos hx] at h
      exact ih h
    · rw [if_neg hx] at h
      rw [List.head?_cons, Option.some_inj] at h
      rw [← h]
      exact Bool.eq_false_iff.mpr hx

theorem head?_of_isPrefix {l₁ l₂ : List Char} (h : l₁ <+: l₂) {c : Char}
    (hc : l₁.head? = some c) : l₂.head? = some c := by
  rcases h with ⟨t, rfl⟩
  cases l₁ with
  | nil => simp at hc
  | cons a l => simpa using hc

theorem jsTrim_head_not_ws (s : String) {c : Char}
    (hc : (jsTrim s).toList.head? = some c) : c.isWhitespace = false := by
  unfold jsTrim at hc
  rw [toList_mk] at hc
  have hsuf : ((s.toList.dropWhile Char.isWhitespace).reverse.dropWhile
      Char.isWhitespace) <:+ (s.toList.dropWhile Char.isWhitespace).reverse :=
    List.dropWhile_suffix _
  have hpre := List.reverse_prefix.mpr hsuf
  rw [List.reverse_reverse] at hpre
  exact head?_dropWhile_false _ (head?_of_isPrefix hpre hc)

theorem matchKeyValue_head_indent {cs : List Char} {c : Char}
    (hhead : cs.head? = some c) (hcws : c.isWhitespace = false)
    {ind : Nat} {kr vr : String}
    (h : matchKeyValue (String.mk cs) = some (ind, kr, vr)) : ind = 0 := by
  match cs, hhead with
  | c :: rest, hhead =>
    rw [List.head?_cons, Option.some_inj] at hhead
    subst hhead
    unfold matchKeyValue at h
    rw [toList_mk] at h
    simp only [] at h
    split at h
    · cases h
    · split at h
      · cases h
      · rename_i hbe
        split at h
        · rename_i hlen
          by_cases hcc : c = ':'
          · simp [List.takeWhile_cons, hcc] at hbe
          · simp [List.takeWhile_cons, hcc, hcws] at hlen
        · by_cases hcc : c = ':'
          · simp [List.takeWhile_cons, hcc] at hbe
          · simp only [List.takeWhile_cons, hcc, hcws] at h
            simp [hcc, hcws] at h
            omega

theorem matchKeyValue_trim_indent {s : String} {ind : Nat} {kr vr : String}
    (h : matchKeyValue (jsTrim s) = some (ind, kr, vr)) : ind = 0 := by
  match hc : (jsTrim s).toList with
  | [] =>
    unfold matchKeyValue at h
    rw [hc] at h
    simp at h
  | c :: rest =>
    have hcws : c.isWhitespace = false :=
      jsTrim_head_not_ws s (by rw [hc]; rfl)
    have hmk : jsTrim s = String.mk (c :: rest) := by
      rw [← hc, mk_toList]
    rw [hmk] at h
    exact matchKeyValue_head_indent (by rfl) hcws h



theorem mem_mapSet {m : List (String × Nat)} {k : String} {v : Nat}
    {p : String × Nat} (hp : p ∈ mapSet m k v) : p ∈ m ∨ p = (k, v) := by
  unfold mapSet at hp
  by_cases ha : m.any (fun q => q.1 = k)
  · rw [if_pos ha] at hp
    rcases List.mem_map.mp hp with ⟨q, hq, hqe⟩
    by_cases hqk : q.1 = k
    · rw [if_pos hqk] at hqe
      exact Or.inr hqe.symm
    · rw [if_neg hqk] at hqe
      exact Or.inl (hqe ▸ hq)
  · rw [if_neg ha] at hp
    rcases List.mem_append.mp hp with h | h
    · exact Or.inl h
    · exact Or.inr (List.mem_singleton.mp h)

/-- Anything the extractor loop records beyond its starting table comes
from a matched line and is exactly that line's trimmed key field. -/
theorem extractGo_spec :
    ∀ (lines : List String) (i : Nat) (stack : List String)
      (table : List (String × Nat)) (k : String) (n : Nat),
      (k, n) ∈ extractGo lines i stack table →
      (k, n) ∈ table ∨
        ∃ j rawLine, lines[j]? = some rawLine ∧ n = i + j + 1 ∧
          ∃ ind kr vr, matchKeyValue (jsTrim rawLine) = some (ind, kr, vr) ∧
            k = jsTrim kr := by
  intro lines
  induction lines with
  | nil =>
    intro i stack table k n h
    exact Or.inl h
  | cons rawLine rest ih =>
    intro i stack table k n h
    rw [extractGo] at h
    have shift : ∀ (st : List String) (tb : List (String × Nat)),
        (k, n) ∈ extractGo rest (i + 1) st tb →
        (k, n) ∈ tb ∨
          ∃ j rl, (rawLine :: rest)[j]? = some rl ∧ n = i + j + 1 ∧
            ∃ ind kr vr, matchKeyValue (jsTrim rl) = some (ind, kr, vr) ∧
              k = jsTrim kr := by
      intro st tb hh
      rcases ih (i + 1) st tb k n hh with h1 | ⟨j, rl, hget, hn, hm⟩
      · exact Or.inl h1
      · exact Or.inr ⟨j + 1, rl, by simpa using hget, by omega, hm⟩
    by_cases hskip : jsTrim rawLine = "" ∨ jsStartsWith (jsTrim rawLine) "#"
    · rw [if_pos hskip] at h
      exact shift _ _ h
    · rw [if_neg hskip] at h
      match hm : matchKeyValue (jsTrim rawLine) with
      | none =>
        rw [hm] at h
        exact shift _ _ h
      | some (indentLevel, keyRaw, valueRaw) =>
        rw [hm] at h
        simp only [] at h
        rcases shift _ _ h with h1 | h1
        · by_cases hrec : jsTrim valueRaw ≠ "" ∧ jsTrim valueRaw ≠ "~"
          · rw [if_pos hrec] at h1
            rcases mem_mapSet h1 with h2 | h2
            · exact Or.inl h2
            · have hind : indentLevel = 0 := matchKeyValue_trim_indent hm
              rw [hind, popStack_zero] at h2
              have hn : n = i + 1 := congrArg Prod.snd h2
              refine Or.inr ⟨0, rawLine, by simp, by omega, ?_⟩
              refine ⟨indentLevel, keyRaw, valueRaw, hm, ?_⟩
              have : k = joinStr '.' [jsTrim keyRaw] := congrArg Prod.fst h2
              rwa [joinStr_singleton] at this
            
          · rw [if_neg hrec] at h1
            exact Or.inl h1
        · exact Or.inr h1

/-! ### Claims -/


theorem keyLangMatch_code_len {key code rest : String}
    (h : keyLangMatch key = some (code, rest)) : code.toList.length = 2 := by
  unfold keyLangMatch at h
  match hkl : key.toList with
  | [] => rw [hkl] at h; cases h
  | [c1] => rw [hkl] at h; cases h
  | [c1, c2] => rw [hkl] at h; cases h
  | c1 :: c2 :: c3 :: r =>
    rw [hkl] at h
    by_cases hc : isAsciiLetter c1 = true ∧ isAsciiLetter c2 = true ∧ c3 = '.' ∧
        r ≠ [] ∧ (r.all fun c => decide (c ≠ '\n' ∧ c ≠ '\x0d')) = true
    · have h2 : (if isAsciiLetter c1 = true ∧ isAsciiLetter c2 = true ∧ c3 = '.' ∧
          r ≠ [] ∧ (r.all fun c => decide (c ≠ '\n' ∧ c ≠ '\x0d')) = true then
          some (String.mk [c1, c2], String.mk r) else none) = some (code, rest) := h
      rw [if_pos hc] at h2
      injection h2 with h1
      have hcode : String.mk [c1, c2] = code := congrArg Prod.fst h1
      rw [← hcode, toList_mk]
      rfl
    · have h2 : (if isAsciiLetter c1 = true ∧ isAsciiLetter c2 = true ∧ c3 = '.' ∧
          r ≠ [] ∧ (r.all fun c => decide (c ≠ '\n' ∧ c ≠ '\x0d')) = true then
          some (String.mk [c1, c2], String.mk r) else none) = some (code, rest) := h
      rw [if_neg hc] at h2
      cases h2

theorem jsToLower_ne_empty {code : String} (hlen : code.toList.length = 2) :
    jsToLower code ≠ "" := by
  intro hc
  have := congrArg String.toList hc
  rw [jsToLower, toList_mk] at this
  have h0 : List.map Char.toLower code.toList = [] := this
  rw [List.map_eq_nil_iff] at h0
  rw [h0] at hlen
  cases hlen



/-- Claim C1 counterexample: post-processing runs deduplication *before*
key normalization, so normalization can rewrite `(key="ko.x", lang=none)`
into `(key="x", lang="ko")`, colliding with an already-present
`(key="x", lang="ko")` — the returned index then contains two entries with
the same key and language. -/
theorem claimC1_counterexample :
    ¬ (postProcessEntries
        [⟨"ko.x", "v1", "f1", none, none⟩, ⟨"x", "v2", "f2", some "ko", none⟩]).Pairwise
      (fun a b => ¬ (a.key = b.key ∧ langOrUnknown a.lang = langOrUnknown b.lang)) := by
  intro h
  have heq : postProcessEntries
      [⟨"ko.x", "v1", "f1", none, none⟩, ⟨"x", "v2", "f2", some "ko", none⟩] =
      [⟨"x", "v1", "f1", some "ko", none⟩, ⟨"x", "v2", "f2", some "ko", none⟩] := by
    decide
  rw [heq] at h
  exact (List.pairwise_cons.mp h).1 _ (List.mem_singleton.mpr rfl) ⟨rfl, rfl⟩

/-- Claim C1 (amended): immediately after deduplication no two entries
share both `key` and (defaulted-to-"unknown") language; the subsequent
normalization step can reintroduce such collisions when it rewrites keys
that embed a language code. -/
theorem claimC1_amended (entries : List I18nEntry) :
    (removeDuplicateEntries entries).Pairwise
      (fun a b => ¬ (a.key = b.key ∧ langOrUnknown a.lang = langOrUnknown b.lang)) :=
  removeDuplicateEntries_pairwise entries

/-- Claim C2 counterexample: for the entry `(key="ko.a", lang="ko")` whose
stored language equals the embedded code, normalization leaves the entry
unchanged — the code is *not* stripped (the update only fires when the
language is absent, empty, or different). -/
theorem claimC2_counterexample :
    normalizeI18nKeys [⟨"ko.a", "v", "f", some "ko", none⟩] =
      [⟨"ko.a", "v", "f", some "ko", none⟩] ∧ ("ko.a" : String) ≠ "a" :=
  ⟨by decide, by decide⟩

/-- Claim C2 (amended): an entry whose key matches `code.rest` and whose
stored language already equals the case-folded code passes through
normalization unchanged; stripping happens only when the stored language
is absent, empty, or differs from the code. -/
theorem claimC2_amended (l1 l2 : List I18nEntry) (e : I18nEntry)
    (code rest : String)
    (h1 : keyLangMatch e.key = some (code, rest))
    (h2 : e.lang = some (jsToLower code)) :
    normalizeI18nKeys (l1 ++ e :: l2) =
      normalizeI18nKeys l1 ++ e :: normalizeI18nKeys l2 := by
  have hne : normalizeEntry e = e := by
    unfold normalizeEntry
    rw [h1]
    simp only []
    rw [if_neg ?hcond]
    case hcond =>
      intro hor
      rcases hor with hfal | hne
      · rw [h2] at hfal
        have : jsToLower code = "" := by simpa [jsFalsyOpt] using hfal
        exact jsToLower_ne_empty (keyLangMatch_code_len h1) this
      · rw [h2] at hne
        exact hne rfl
  unfold normalizeI18nKeys
  rw [List.map_append, List.map_cons, hne]

/-- Claim C2 amended, witness at the entry `(key="ko.a", lang="ko")`. -/
theorem claimC2_amended_witness :
    keyLangMatch "ko.a" = some ("ko", "a") ∧
      normalizeI18nKeys [⟨"ko.a", "v", "f", some "ko", none⟩] =
        [⟨"ko.a", "v", "f", some "ko", none⟩] :=
  ⟨by decide,
    claimC2_amended [] [] ⟨"ko.a", "v", "f", some "ko", none⟩ "ko" "a"
      (by decide) (by decide)⟩



/-- Claim C3 counterexample: the Fallback Line Parser performs no
duplicate-segment normalization, so scanning the malformed file
`"a:\n  a:\n    b: v\n@@@"` leaves the key `a.a.b` (adjacent duplicate
segment `a`) in the final index even after post-processing. -/
theorem claimC3_counterexample :
    postProcessEntries
        (attemptPartialParsing "a:\n  a:\n    b: v\n@@@" "broken.yml" none) =
      [⟨"a.a.b", "v", "broken.yml", none, some 3⟩] ∧
    ¬ noAdjDupSegments "a.a.b" :=
  ⟨by decide, by decide⟩

/-- Claim C3 (amended): every entry produced by the Tree Flattener — and
still every such entry after post-processing — has no two adjacent
identical path segments; entries recovered by the Fallback Line Parser
are not normalized and may retain adjacent duplicates. -/
theorem claimC3_amended (obj : Yaml) (pfx filePath : String)
    (lang : Option String) (kps : Option (List (String × Nat))) :
    ∀ e ∈ postProcessEntries (flattenYaml obj pfx filePath lang kps),
      noAdjDupSegments e.key :=
  fun e he =>
    (goodKey_postProcess (flattenYaml_goodKey obj pfx filePath lang kps) e he).1

/-- Claim C3 amended, witness on a two-level tree. -/
theorem claimC3_amended_witness :
    (⟨"a.b", "v", "f.yml", none, none⟩ : I18nEntry) ∈
        postProcessEntries (flattenYaml
          (Yaml.map [("a", Yaml.map [("b", Yaml.scalar "v")])])
          "" "f.yml" none none) ∧
      noAdjDupSegments "a.b" :=
  ⟨by decide,
    claimC3_amended (Yaml.map [("a", Yaml.map [("b", Yaml.scalar "v")])])
      "" "f.yml" none none ⟨"a.b", "v", "f.yml", none, none⟩ (by decide)⟩

set_option maxRecDepth 4000 in
/-- Claim C4 counterexample: the Fallback Line Parser applies no length
guard — a 201-character key parsed on its fallback path is added to the
index and survives post-processing. -/
theorem claimC4_counterexample :
    postProcessEntries
        (attemptPartialParsing
          (String.mk (List.replicate 201 'a' ++ [':', ' ', 'v']))
          "f.yml" none) =
      [⟨String.mk (List.replicate 201 'a'), "v", "f.yml", none, some 1⟩] ∧
    (String.mk (List.replicate 201 'a')).toList.length > 200 :=
  ⟨by decide, by decide⟩

/-- Claim C4 (amended): the Tree Flattener never emits an entry whose
(normalized) key is longer than 200 characters — the oversized entry is
skipped while its siblings are still processed — and this bound survives
post-processing; the Fallback Line Parser applies no such guard. -/
theorem claimC4_amended (obj : Yaml) (pfx filePath : String)
    (lang : Option String) (kps : Option (List (String × Nat))) :
    ∀ e ∈ postProcessEntries (flattenYaml obj pfx filePath lang kps),
      e.key.toList.length ≤ 200 :=
  fun e he =>
    (goodKey_postProcess (flattenYaml_goodKey obj pfx filePath lang kps) e he).2

/-- Claim C4 amended, witness on a one-entry tree. -/
theorem claimC4_amended_witness :
    (⟨"t", "1", "x.yml", none, none⟩ : I18nEntry) ∈
        postProcessEntries (flattenYaml (Yaml.map [("t", Yaml.scalar "1")])
          "" "x.yml" none none) ∧
      ("t" : String).toList.length ≤ 200 :=
  ⟨by decide,
    claimC4_amended (Yaml.map [("t", Yaml.scalar "1")]) "" "x.yml" none none
      ⟨"t", "1", "x.yml", none, none⟩ (by decide)⟩

/-- Claim C5: for the text `"a:\n  b: hello\n"` the Position Extractor's
table followed by the `findLineNumber` lookup yields line 2 for the key
`a.b` (via the last-segment suffix fallback, since the extractor's table
records the single-segment key `b`). -/
theorem claimC5_position :
    findLineNumber (some (extractKeyPositions "a:\n  b: hello\n")) "a.b" =
      some 2 := by
  decide

/-- Claim C6: flattening `{ko: {a: {b: "v"}}}` emits exactly one entry
`(key="a.b", value="v", lang="ko")`: the language root is recursed into
with an empty prefix and removed from generic processing, so the subtree
is not re-emitted under a `ko>`-prefixed key. -/
theorem claimC6_flatten :
    flattenYaml
        (Yaml.map [("ko", Yaml.map [("a", Yaml.map [("b", Yaml.scalar "v")])])])
        "" "locales.yml" none (some []) =
      [⟨"a.b", "v", "locales.yml", some "ko", none⟩] := by
  decide



/-- Claim C7: `findByKey` behaves exactly as specified — all exact matches
when any exist; otherwise, for a key containing the interpolation marker,
the single prefix match whose key length is closest to the lookup key's
(earliest entry winning ties, by sort stability); otherwise the empty
list, never an error. -/
theorem claimC7_findByKey (entries : List I18nEntry) (key : String) :
    findByKey entries key = findByKeySpec entries key := by
  simp only [findByKey, findByKeySpec]
  by_cases hex : List.filter (fun e => decide (e.key = key)) entries = []
  · have h1 : ¬((List.filter (fun e => decide (e.key = key)) entries).length > 0) := by
      simp [hex]
    have h2 : ¬(List.filter (fun e => decide (e.key = key)) entries ≠ []) := by
      simp [hex]
    rw [if_neg h1, if_neg h2]
    by_cases hcb : containsHashBrace key.toList = true
    · rw [if_pos hcb, if_pos hcb]
      by_cases hbk : stripTrailingDot (String.mk (beforeHashBrace key.toList)) = ""
      · have hb1 : ¬((stripTrailingDot (String.mk
            (beforeHashBrace key.toList))).toList.length > 0) := by rw [hbk]; decide
        have hb2 : ¬(stripTrailingDot (String.mk (beforeHashBrace key.toList)) ≠ "") :=
          fun h => h hbk
        rw [if_neg hb1, if_neg hb2]
      · have hb1 : (stripTrailingDot (String.mk
            (beforeHashBrace key.toList))).toList.length > 0 :=
          List.length_pos.mpr (fun h => hbk ((toList_eq_nil_iff _).mp h))
        rw [if_pos hb1, if_pos hbk]
        by_cases hbm : List.filter (fun e => jsStartsWith e.key
            (stripTrailingDot (String.mk (beforeHashBrace key.toList)))) entries = []
        · have hm1 : ¬((List.filter (fun e => jsStartsWith e.key
              (stripTrailingDot (String.mk (beforeHashBrace key.toList))))
                entries).length > 0) := by rw [hbm]; decide
          rw [if_neg hm1, hbm]
          simp [firstMinBy]
        · rw [if_pos (List.length_pos.mpr hbm)]
          have hhead := stableSort_closerThan_head key.length
            (List.filter (fun e => jsStartsWith e.key
              (stripTrailingDot (String.mk (beforeHashBrace key.toList)))) entries)
          match hss : stableSort (closerThan key.length)
              (List.filter (fun e => jsStartsWith e.key
                (stripTrailingDot (String.mk (beforeHashBrace key.toList)))) entries) with
          | [] => exact absurd ((stableSort_eq_nil_iff _ _).mp hss) hbm
          | e :: t =>
            rw [hss] at hhead
            simp only [List.head?_cons] at hhead
            simp only []
            rw [← hhead]
    · rw [if_neg hcb, if_neg hcb]
  · rw [if_pos (List.length_pos.mpr hex), if_pos hex]

/-- Claim C8: with only `(key="ko.x.y", lang="ko")` in the index,
`findExactKey "x.y"` misses, and alternative resolution with known codes
`["ko", "en"]` finds the entry by prepending `"ko."` and retrying; the
entry's location is returned (its file must be truthy for the located
filter). -/
theorem claimC8_alternative (file value : String) (n : Nat) (hf : file ≠ "") :
    findExactKey [⟨"ko.x.y", value, file, some "ko", some n⟩] "x.y" none = none ∧
      findAlternativeKeyLocations [⟨"ko.x.y", value, file, some "ko", some n⟩]
        ["ko", "en"] "x.y" = [⟨file, n - 1, 0⟩] := by
  constructor
  · simp [findExactKey, jsFalsyOpt]
  · have hkl : keyLangMatch "x.y" = none := by decide
    have happ : ("ko" : String) ++ "." ++ "x.y" = "ko.x.y" := by decide
    simp [findAlternativeKeyLocations, findAltKey, hkl, prependLoop, happ,
      hasLoc, hf, createLocation]

/-- Claim C8, witness at `file="f.yml"`, `value="v"`, `line=1`. -/
theorem claimC8_witness :
    findExactKey [⟨"ko.x.y", "v", "f.yml", some "ko", some 1⟩] "x.y" none = none ∧
      findAlternativeKeyLocations [⟨"ko.x.y", "v", "f.yml", some "ko", some 1⟩]
        ["ko", "en"] "x.y" = [⟨"f.yml", 0, 0⟩] :=
  claimC8_alternative "f.yml" "v" 1 (by decide)

/-- Claim C9: every (key, line) pair the Position Extractor records comes
from the line it points to, and the recorded key is exactly that line's
trimmed key field — never a parent-qualified multi-segment path — because
each line is trimmed before its indentation is measured, so the measured
indent is 0 and the segment stack is fully popped before every push. -/
theorem claimC9_singleSegment (content k : String) (n : Nat)
    (h : (k, n) ∈ extractKeyPositions content) :
    ∃ rawLine, (splitStr '\n' content)[n - 1]? = some rawLine ∧
      ∃ ind kr vr, matchKeyValue (jsTrim rawLine) = some (ind, kr, vr) ∧
        k = jsTrim kr := by
  unfold extractKeyPositions at h
  rcases extractGo_spec _ 0 [] [] k n h with h1 | ⟨j, rl, hget, hn, hm⟩
  · simp at h1
  · refine ⟨rl, ?_, hm⟩
    have hj : n - 1 = j := by omega
    rw [hj]
    exact hget

/-- Claim C9, witness on the one-line text `"a: v"`. -/
theorem claimC9_witness :
    ("a", 1) ∈ extractKeyPositions "a: v" ∧
      ∃ rawLine, (splitStr '\n' "a: v")[1 - 1]? = some rawLine ∧
        ∃ ind kr vr, matchKeyValue (jsTrim rawLine) = some (ind, kr, vr) ∧
          "a" = jsTrim kr :=
  ⟨by decide, claimC9_singleSegment "a: v" "a" 1 (by decide)⟩

/-- Claim C10: a dynamic lookup key whose base prefix (text before the
variable marker, trailing dot removed) is empty matches nothing beyond the
exact path: `findByKey` skips the prefix search and returns `[]`. -/
theorem claimC10_emptyBase (entries : List I18nEntry) (key : String)
    (h1 : entries.filter (fun e => e.key = key) = [])
    (h2 : containsHashBrace key.toList = true)
    (h3 : stripTrailingDot (String.mk (beforeHashBrace key.toList)) = "") :
    findByKey entries key = [] := by
  simp only [findByKey]
  rw [if_neg (by simp [h1]), if_pos h2, if_neg (by rw [h3]; decide)]

/-- Claim C10, witness at the key `"#\x7bx\x7d"`. -/
theorem claimC10_witness :
    findByKey [⟨"a", "v", "f", none, none⟩] "#\x7bx\x7d" = [] :=
  claimC10_emptyBase [⟨"a", "v", "f", none, none⟩] "#\x7bx\x7d"
    (by decide) (by decide) (by decide)

end RailsI18n
